import Mathlib

/-!
# The `port` subcommand of trojan (`cmd/port.go`)

A shallow embedding of the `port` command handler and of the library code it
runs through: Go's `strconv.Atoi` (with `ParseInt` / `ParseUint` behind it)
and cobra's `MaximumNArgs`.  Go strings are byte sequences, machine integers
are `Nat` / `Int` with explicit wrap-around, and a Go `(value, error)` result
is a pair whose second component is `none` for a nil error.

The two functions of package `trojan` that the handler calls are not part of
`cmd/port.go`; the handler is embedded over an arbitrary implementation of
them (`TrojanPkg`), and every call is also recorded in the world.
-/

namespace Trojan

/-! ## Go data -/

/-- A Go `byte`. -/
abbrev Byte := Fin 256

/-- A Go `string`: an immutable sequence of bytes. -/
abbrev GoString := List Byte

/-- The two word sizes Go compiles for; `strconv` reads it off `^uint(0) >> 63`. -/
inductive Arch where
  | bits32
  | bits64
  deriving DecidableEq, Repr

/-- Go: `const intSize = 32 << (^uint(0) >> 63)`, the width of `int`. -/
def intSize : Arch → Nat
  | .bits32 => 32
  | .bits64 => 64

/-- Conversion of an integer to the signed two's-complement type of width `w`. -/
def wrapS (w : Nat) (x : Int) : Int :=
  (x + 2 ^ (w - 1)) % 2 ^ w - 2 ^ (w - 1)

/-- Go: `const maxUint64 = 1<<64 - 1`. -/
def maxUint64 : Nat := 2 ^ 64 - 1

namespace strconv

/-- The `Err` field of a `*strconv.NumError`. -/
inductive NumErr where
  | ErrSyntax
  | ErrRange
  | ErrBitSize
  deriving DecidableEq, Repr

/-- Go: `func lower(c byte) byte { return c | ('x' - 'X') }`. -/
def lower (c : Byte) : Nat := c.val ||| 32

/-- The `switch` of `ParseUint` that reads one byte as a digit `d`; `none` is
the `default` case (a syntax error).  The underscore case is guarded by
`base == 0` and cannot fire for base 10. -/
def digitValue (c : Byte) : Option Nat :=
  if 48 ≤ c.val ∧ c.val ≤ 57 then some (c.val - 48)
  else if 97 ≤ lower c ∧ lower c ≤ 122 then some (lower c - 97 + 10)
  else none

/-- The byte loop of `ParseUint` at base 10, `n` being the `uint64`
accumulator. -/
def ParseUintLoop (cutoff maxVal : Nat) : List Byte → Nat → Nat × Option NumErr
  | [], n => (n, none)
  | c :: cs, n =>
    match digitValue c with
    | none => (0, some .ErrSyntax)
    | some d =>
      if d ≥ 10 then (0, some .ErrSyntax)
      else if n ≥ cutoff then (maxVal, some .ErrRange)
      else
        let n10 := n * 10 % 2 ^ 64
        let n1 := (n10 + d) % 2 ^ 64
        if n1 < n10 ∨ n1 > maxVal then (maxVal, some .ErrRange)
        else ParseUintLoop cutoff maxVal cs n1

/-- Go: `strconv.ParseUint(s, 10, bitSize)`. -/
def ParseUint (a : Arch) (s : GoString) (bitSize : Nat) : Nat × Option NumErr :=
  if s = [] then (0, some .ErrSyntax)
  else
    let bitSize := if bitSize = 0 then intSize a else bitSize
    if bitSize > 64 then (0, some .ErrBitSize)
    else
      let cutoff := maxUint64 / 10 + 1
      let maxVal := ((1 <<< bitSize) % 2 ^ 64 + 2 ^ 64 - 1) % 2 ^ 64
      ParseUintLoop cutoff maxVal s 0

/-- Go: `strconv.ParseInt(s, 10, bitSize)`; the result is an `int64`. -/
def ParseInt (a : Arch) (s : GoString) (bitSize : Nat) : Int × Option NumErr :=
  match s with
  | [] => (0, some .ErrSyntax)
  | c :: cs =>
    let neg : Bool := c.val = 45
    let s1 := if c.val = 43 then cs else if c.val = 45 then cs else s
    let r := ParseUint a s1 bitSize
    let un := r.1
    let err := r.2
    if err ≠ none ∧ err ≠ some .ErrRange then (0, err)
    else
      let bitSize := if bitSize = 0 then intSize a else bitSize
      let cutoff := (1 <<< (bitSize - 1)) % 2 ^ 64
      if neg = false ∧ un ≥ cutoff then (wrapS 64 (cutoff - 1 : Nat), some .ErrRange)
      else if neg = true ∧ un > cutoff then (wrapS 64 (-(wrapS 64 cutoff)), some .ErrRange)
      else
        let n := wrapS 64 un
        let n := if neg then wrapS 64 (-n) else n
        (n, none)

/-- The byte loop of the fast path of `Atoi`: `ch -= 48` on a byte, then
`n = n*10 + int(ch)` on an `int`; `none` is the syntax-error return. -/
def AtoiLoop (a : Arch) : List Byte → Int → Option Int
  | [], n => some n
  | ch :: cs, n =>
    let ch1 := (ch.val + 256 - 48) % 256
    if ch1 > 9 then none
    else AtoiLoop a cs (wrapS (intSize a) (n * 10 + ch1))

/-- Go: `strconv.Atoi(s)`, equivalent to `ParseInt(s, 10, 0)` converted to
`int`, with a fast path for short strings. -/
def Atoi (a : Arch) (s : GoString) : Int × Option NumErr :=
  let sLen := s.length
  if (intSize a = 32 ∧ (0 < sLen ∧ sLen < 10)) ∨
      (intSize a = 64 ∧ (0 < sLen ∧ sLen < 19)) then
    match s with
    | [] => (0, some .ErrSyntax)
    | c0 :: rest =>
      let signed : Bool := c0.val = 45 ∨ c0.val = 43
      if signed = true ∧ rest.length < 1 then (0, some .ErrSyntax)
      else
        let s1 := if signed then rest else s
        match AtoiLoop a s1 0 with
        | none => (0, some .ErrSyntax)
        | some n => (if c0.val = 45 then wrapS (intSize a) (-n) else n, none)
  else
    let r := ParseInt a s 0
    (wrapS (intSize a) r.1, r.2)

end strconv

/-! ## The command -/

/-- A call into package `trojan` made by the handler. -/
inductive Call where
  | ChangePortByNum (port : Int)
  | ChangePort
  deriving DecidableEq, Repr

/-- The two entry points of package `trojan` used by `cmd/port.go`, as
transformers of the configuration-and-service state `σ` they own. -/
structure TrojanPkg (σ : Type) where
  ChangePortByNum : Int → σ → σ
  ChangePort : σ → σ

/-- What the handler can affect: the lines it prints with `fmt.Println`, the
calls it makes into package `trojan`, and the state those calls act on. -/
structure World (σ : Type) where
  printed : List String
  calls : List Call
  sys : σ

/-- First message of the handler: the port number must be a number. -/
def msgNotNumber : String := "端口号必须是数字"

/-- Second message of the handler: the port number must be within 1-65535. -/
def msgOutOfRange : String := "端口号必须在1-65535范围内"

/-- Go: `fmt.Println(line)`. -/
def World.Println {σ : Type} (w : World σ) (line : String) : World σ :=
  { w with printed := w.printed ++ [line] }

/-- Go: `trojan.ChangePortByNum(port)`. -/
def World.ChangePortByNum {σ : Type} (T : TrojanPkg σ) (w : World σ) (port : Int) : World σ :=
  { w with calls := w.calls ++ [Call.ChangePortByNum port], sys := T.ChangePortByNum port w.sys }

/-- Go: `trojan.ChangePort()`. -/
def World.ChangePort {σ : Type} (T : TrojanPkg σ) (w : World σ) : World σ :=
  { w with calls := w.calls ++ [Call.ChangePort], sys := T.ChangePort w.sys }

/-- The `Run` field of `portCmd`; `[arg0]` is the case `len(args) == 1`. -/
def portCmd.Run {σ : Type} (a : Arch) (T : TrojanPkg σ) (args : List GoString)
    (w : World σ) : World σ :=
  match args with
  | [arg0] =>
    let r := strconv.Atoi a arg0
    if r.2 ≠ none then w.Println msgNotNumber
    else if r.1 < 1 ∨ r.1 > 65535 then w.Println msgOutOfRange
    else w.ChangePortByNum T r.1
  | _ => w.ChangePort T

/-- The error of cobra's argument validators. -/
inductive ArgsError where
  | atMost (n received : Nat)
  deriving DecidableEq, Repr

/-- Go: `cobra.MaximumNArgs(n)`; `none` is the nil error. -/
def cobra.MaximumNArgs (n : Nat) (args : List GoString) : Option ArgsError :=
  if args.length > n then some (ArgsError.atMost n args.length) else none

/-- The `Args` field of `portCmd`. -/
def portCmd.Args (args : List GoString) : Option ArgsError :=
  cobra.MaximumNArgs 1 args

/-- The part of cobra's `(*Command).execute` that concerns `portCmd`: the
positional arguments are validated, an error is returned without running the
handler, and otherwise `Run` (which has no result) runs and nil is returned. -/
def portCmd.execute {σ : Type} (a : Arch) (T : TrojanPkg σ) (args : List GoString)
    (w : World σ) : Option ArgsError × World σ :=
  match portCmd.Args args with
  | some e => (some e, w)
  | none => (none, portCmd.Run a T args w)

/-! ## Decimal numerals

The reading of an argument as a decimal numeral, written independently of
`strconv`: an optional sign followed by one or more ASCII digits, denoting an
unbounded integer. -/

/-- An ASCII decimal digit, `0` to `9`. -/
def isDigit (c : Byte) : Bool := decide (48 ≤ c.val ∧ c.val ≤ 57)

/-- The value of a digit string read after the value `n`. -/
def digitsFrom (n : Nat) (ds : List Byte) : Nat :=
  ds.foldl (fun m c => m * 10 + (c.val - 48)) n

/-- The value of a digit string. -/
def digitsVal (ds : List Byte) : Nat := digitsFrom 0 ds

/-- One or more ASCII decimal digits. -/
def isDigits (ds : List Byte) : Bool := !ds.isEmpty && ds.all isDigit

/-- The integer a string denotes as a decimal numeral (optional `+` or `-`,
then one or more digits, of any length); `none` for every other string. -/
def numeral : GoString → Option Int
  | [] => none
  | c :: cs =>
    if c.val = 43 then (if isDigits cs then some (digitsVal cs : Int) else none)
    else if c.val = 45 then (if isDigits cs then some (-(digitsVal cs : Int)) else none)
    else if isDigits (c :: cs) then some (digitsVal (c :: cs) : Int) else none

/-- The unsigned reading used for an accepted port: an optional `+`, then one
or more digits. -/
def plusDigits : GoString → Option Nat
  | [] => none
  | c :: cs =>
    if c.val = 43 then (if isDigits cs then some (digitsVal cs) else none)
    else if isDigits (c :: cs) then some (digitsVal (c :: cs)) else none

/-- The canonical decimal numeral of a natural number (what `strconv.Itoa`
prints for it): its base-10 digits, most significant first. -/
def decimal (p : Nat) : GoString :=
  if p = 0 then [48]
  else (Nat.digits 10 p).reverse.map (fun d => (⟨(48 + d) % 256, Nat.mod_lt _ (by decide)⟩ : Byte))

/-- Smallest value of Go's `int`. -/
def minInt (a : Arch) : Int := -(2 ^ (intSize a - 1))

/-- Largest value of Go's `int`. -/
def maxInt (a : Arch) : Int := 2 ^ (intSize a - 1) - 1

/-- The largest value `ParseUint` lets through at bit size 0: `1<<intSize - 1`. -/
def maxUint (a : Arch) : Nat := 2 ^ intSize a - 1

/-- A concrete package `trojan` for running the handler on explicit inputs:
the state is the configured port, `ChangePortByNum` stores its argument and
the interactive `ChangePort` leaves the port as it is. -/
def storePkg : TrojanPkg Nat where
  ChangePortByNum := fun port _ => port.toNat
  ChangePort := fun σ => σ

/-! ## The reconfiguration core

`trojan.ChangePortByNum` itself is not in `cmd/port.go`.  What it is specified
to do after validation is modelled here from sections 4.1 to 4.4 and 8 of the
specification. -/

namespace Core

/-- Modelled from the spec: the two resources the orchestrator mutates, absent
from the sources (the body of `trojan.ChangePortByNum`): the port in the
authoritative configuration of the store, and the port the running service
listens on, `none` when the service is stopped. -/
structure System where
  store : Nat
  service : Option Nat
  deriving DecidableEq, Repr

/-- Modelled from the spec: the operations of `ConfigStore` and
`ServiceController` in the order the orchestrator performs them. -/
inductive Op where
  | commit (port : Nat)
  | apply (port : Nat)
  | revertAndRestart (port : Nat)
  deriving DecidableEq, Repr

/-- Modelled from the spec: how the service answers `apply` and
`revertAndRestart` for a given port (section 4.3). -/
structure Service where
  applyOk : Nat → Bool
  revertOk : Nat → Bool

/-- Modelled from the spec: the tagged outcome reported by the core
(section 6). -/
inductive Outcome where
  | Success (newPort : Nat)
  | ValidationFailed
  | ApplyFailed (recovered : Bool)
  | Degraded
  deriving DecidableEq, Repr

/-- Modelled from the spec: `PortValidator.validate` on an integer candidate
(section 4.1): the closed range 1 to 65535. -/
def validate (candidate : Int) : Option Nat :=
  if 1 ≤ candidate ∧ candidate ≤ 65535 then some candidate.toNat else none

/-- Modelled from the spec: the `ReconfigureOrchestrator` state machine of
section 4.4 with storage steps that succeed.  Validation failure changes
nothing; otherwise the new port is committed and applied; a failed apply
leaves the service stopped and triggers one `revertAndRestart` with the
previously authoritative port; if that succeeds the old port is re-committed
(`RolledBack`), if not the store keeps the last committed port and the
service stays down (`Degraded`, scenario 5). -/
def reconfigure (svc : Service) (candidate : Int) (sys : System) :
    Outcome × System × List Op :=
  match validate candidate with
  | none => (Outcome.ValidationFailed, sys, [])
  | some newPort =>
    let old := sys.store
    if svc.applyOk newPort then
      (Outcome.Success newPort, { store := newPort, service := some newPort },
        [Op.commit newPort, Op.apply newPort])
    else if svc.revertOk old then
      (Outcome.ApplyFailed true, { store := old, service := some old },
        [Op.commit newPort, Op.apply newPort, Op.revertAndRestart old, Op.commit old])
    else
      (Outcome.Degraded, { store := newPort, service := none },
        [Op.commit newPort, Op.apply newPort, Op.revertAndRestart old])

/-- The number of rollback attempts among the operations performed. -/
def rollbacks (ops : List Op) : Nat :=
  (ops.filter (fun o => match o with
    | Op.revertAndRestart _ => true
    | _ => false)).length

end Core

/-! # Proofs -/

open strconv

/-! ## Decimal numerals -/

theorem isDigit_iff (c : Byte) : isDigit c = true ↔ 48 ≤ c.val ∧ c.val ≤ 57 := by
  simp [isDigit]

theorem isDigits_iff (ds : List Byte) :
    isDigits ds = true ↔ ds ≠ [] ∧ ds.all isDigit = true := by
  cases ds <;> simp [isDigits]

theorem isDigits_head (c : Byte) (cs : List Byte) (h : isDigits (c :: cs) = true) :
    48 ≤ c.val ∧ c.val ≤ 57 := by
  have := ((isDigits_iff (c :: cs)).1 h).2
  rw [List.all_cons, Bool.and_eq_true] at this
  exact (isDigit_iff c).1 this.1

theorem digitsFrom_cons (n : Nat) (c : Byte) (cs : List Byte) :
    digitsFrom n (c :: cs) = digitsFrom (n * 10 + (c.val - 48)) cs := rfl

theorem digitsFrom_append (n : Nat) (xs ys : List Byte) :
    digitsFrom n (xs ++ ys) = digitsFrom (digitsFrom n xs) ys := by
  simp [digitsFrom, List.foldl_append]

theorem le_digitsFrom (ds : List Byte) : ∀ n : Nat, n ≤ digitsFrom n ds := by
  induction ds with
  | nil => intro n; exact Nat.le_refl n
  | cons c cs ih =>
    intro n
    rw [digitsFrom_cons]
    have := ih (n * 10 + (c.val - 48))
    omega

theorem digitsFrom_lt (ds : List Byte) (hd : ds.all isDigit = true) :
    ∀ n : Nat, digitsFrom n ds < (n + 1) * 10 ^ ds.length := by
  induction ds with
  | nil => intro n; simp [digitsFrom]
  | cons c cs ih =>
    intro n
    rw [List.all_cons, Bool.and_eq_true, isDigit_iff] at hd
    rw [digitsFrom_cons, List.length_cons, pow_succ]
    have h1 := ih hd.2 (n * 10 + (c.val - 48))
    have h2 : (n * 10 + (c.val - 48) + 1) * 10 ^ cs.length ≤ (n + 1) * 10 * 10 ^ cs.length :=
      Nat.mul_le_mul_right _ (by omega)
    calc digitsFrom (n * 10 + (c.val - 48)) cs
        < (n * 10 + (c.val - 48) + 1) * 10 ^ cs.length := h1
      _ ≤ (n + 1) * 10 * 10 ^ cs.length := h2
      _ = (n + 1) * (10 ^ cs.length * 10) := by ring

theorem numeral_cons (c : Byte) (cs : List Byte) :
    numeral (c :: cs) =
      if c.val = 43 then (if isDigits cs then some (digitsVal cs : Int) else none)
      else if c.val = 45 then (if isDigits cs then some (-(digitsVal cs : Int)) else none)
      else if isDigits (c :: cs) then some (digitsVal (c :: cs) : Int) else none := rfl

theorem numeral_split (c : Byte) (cs : List Byte) :
    numeral (c :: cs) =
      if isDigits (if c.val = 45 ∨ c.val = 43 then cs else c :: cs) then
        some (if c.val = 45
          then -(digitsVal (if c.val = 45 ∨ c.val = 43 then cs else c :: cs) : Int)
          else (digitsVal (if c.val = 45 ∨ c.val = 43 then cs else c :: cs) : Int))
      else none := by
  rw [numeral_cons]
  by_cases h43 : c.val = 43
  · have h45 : ¬ c.val = 45 := by omega
    simp only [h43, h45, or_true, if_true, if_false]
    rfl
  · by_cases h45 : c.val = 45
    · have hor : c.val = 45 ∨ c.val = 43 := Or.inl h45
      simp only [if_neg h43, if_pos h45, if_pos hor]
    · have hor : ¬ (c.val = 45 ∨ c.val = 43) := by omega
      simp only [if_neg h43, if_neg h45, if_neg hor]

theorem numeral_of_isDigits (ds : List Byte) (h : isDigits ds = true) :
    numeral ds = some (digitsVal ds : Int) := by
  cases ds with
  | nil => simp [isDigits] at h
  | cons c cs =>
    have hc : isDigit c = true := by
      have := ((isDigits_iff (c :: cs)).1 h).2
      rw [List.all_cons, Bool.and_eq_true] at this
      exact this.1
    have hv := (isDigit_iff c).1 hc
    rw [numeral_cons, if_neg (by omega), if_neg (by omega), if_pos h]

theorem plusDigits_cons (c : Byte) (cs : List Byte) :
    plusDigits (c :: cs) =
      if c.val = 43 then (if isDigits cs then some (digitsVal cs) else none)
      else if isDigits (c :: cs) then some (digitsVal (c :: cs)) else none := rfl

theorem numeral_of_plusDigits (s : GoString) (n : Nat) (h : plusDigits s = some n) :
    numeral s = some (n : Int) := by
  cases s with
  | nil => simp [plusDigits] at h
  | cons c cs =>
    rw [plusDigits_cons] at h
    rw [numeral_cons]
    by_cases h43 : c.val = 43
    · rw [if_pos h43] at h ⊢
      cases hd : isDigits cs
      · rw [hd] at h; simp at h
      · rw [hd] at h; simp only [if_true, Option.some.injEq] at h ⊢; rw [h]
    · rw [if_neg h43] at h ⊢
      cases hd : isDigits (c :: cs)
      · rw [hd] at h; simp at h
      · rw [hd] at h
        have := isDigits_head c cs hd
        rw [if_neg (by omega)]
        simp only [if_true, Option.some.injEq] at h ⊢; rw [h]

theorem plusDigits_of_numeral (s : GoString) (v : Int) (h : numeral s = some v)
    (hv : 1 ≤ v) : plusDigits s = some v.toNat := by
  cases s with
  | nil => simp [numeral] at h
  | cons c cs =>
    rw [numeral_cons] at h
    rw [plusDigits_cons]
    by_cases h43 : c.val = 43
    · rw [if_pos h43] at h ⊢
      cases hd : isDigits cs
      · rw [hd] at h; simp at h
      · rw [hd] at h; simp only [if_true, Option.some.injEq] at h ⊢; rw [← h]; simp
    · rw [if_neg h43] at h ⊢
      by_cases h45 : c.val = 45
      · rw [if_pos h45] at h
        cases hd : isDigits cs
        · rw [hd] at h; simp at h
        · rw [hd] at h; simp only [if_true, Option.some.injEq] at h; omega
      · rw [if_neg h45] at h
        cases hd : isDigits (c :: cs)
        · rw [hd] at h; simp at h
        · rw [hd] at h; simp only [if_true, Option.some.injEq] at h ⊢; rw [← h]; simp

theorem decimal_digits (L : List Nat) (hL : ∀ d ∈ L, d < 10) :
    (L.reverse.map (fun d => (⟨(48 + d) % 256, Nat.mod_lt _ (by decide)⟩ : Byte))).all isDigit
        = true ∧
    digitsVal (L.reverse.map (fun d => (⟨(48 + d) % 256, Nat.mod_lt _ (by decide)⟩ : Byte)))
        = Nat.ofDigits 10 L := by
  induction L with
  | nil => exact ⟨rfl, rfl⟩
  | cons d t ih =>
    have hd : d < 10 := hL d (List.mem_cons_self d t)
    obtain ⟨ih1, ih2⟩ := ih (fun x hx => hL x (List.mem_cons_of_mem d hx))
    rw [List.reverse_cons, List.map_append, List.all_append, ih1, Bool.true_and]
    constructor
    · simp only [List.map_cons, List.map_nil, List.all_cons, List.all_nil, Bool.and_true]
      rw [isDigit_iff]
      simp only
      omega
    · unfold digitsVal at ih2 ⊢
      rw [digitsFrom_append, ih2, Nat.ofDigits_cons]
      simp only [List.map_cons, List.map_nil, digitsFrom, List.foldl_cons, List.foldl_nil]
      omega

theorem numeral_decimal (n : Nat) : numeral (decimal n) = some (n : Int) := by
  by_cases h0 : n = 0
  · subst h0; decide
  · have hL : ∀ d ∈ Nat.digits 10 n, d < 10 := fun d hd => Nat.digits_lt_base (by decide) hd
    obtain ⟨h1, h2⟩ := decimal_digits (Nat.digits 10 n) hL
    have hne : Nat.digits 10 n ≠ [] := Nat.digits_ne_nil_iff_ne_zero.2 h0
    have hdig : isDigits (decimal n) = true := by
      rw [isDigits_iff]
      unfold decimal
      rw [if_neg h0]
      exact ⟨by simpa using hne, h1⟩
    rw [numeral_of_isDigits _ hdig]
    unfold decimal
    rw [if_neg h0, h2, Nat.ofDigits_digits]

/-! ## `ParseUint`: the unsigned loop reads a digit string exactly, up to its bound -/

theorem digitValue_digit (c : Byte) (h : isDigit c = true) :
    digitValue c = some (c.val - 48) := by
  rw [isDigit_iff] at h
  simp [digitValue, h]

theorem digitValue_other (c : Byte) (h : isDigit c = false) :
    digitValue c = none ∨ ∃ d, digitValue c = some d ∧ 10 ≤ d := by
  have h' : ¬ (48 ≤ c.val ∧ c.val ≤ 57) := by
    rw [← isDigit_iff]; simp [h]
  unfold digitValue
  rw [if_neg h']
  by_cases hl : 97 ≤ lower c ∧ lower c ≤ 122
  · right; rw [if_pos hl]; exact ⟨_, rfl, by omega⟩
  · left; rw [if_neg hl]

/-- One round of the `ParseUint` loop on a digit: the two overflow tests
together decide whether `n * 10 + d` exceeds `maxVal`. -/
theorem ParseUintLoop_cons_digit (M n : Nat) (c : Byte) (cs : List Byte)
    (hc : isDigit c = true) (hM : M < 2 ^ 64) :
    ParseUintLoop (maxUint64 / 10 + 1) M (c :: cs) n =
      if n * 10 + (c.val - 48) ≤ M then
        ParseUintLoop (maxUint64 / 10 + 1) M cs (n * 10 + (c.val - 48))
      else (M, some NumErr.ErrRange) := by
  have hd := (isDigit_iff c).1 hc
  rw [ParseUintLoop, digitValue_digit c hc]
  simp only [maxUint64]
  rw [if_neg (by omega)]
  by_cases h1 : n ≥ (2 ^ 64 - 1) / 10 + 1
  · rw [if_pos h1, if_neg (by omega)]
  · rw [if_neg h1]
    have e10 : n * 10 % 2 ^ 64 = n * 10 := by omega
    simp only [e10]
    by_cases h2 : n * 10 + (c.val - 48) ≤ M
    · have e1 : (n * 10 + (c.val - 48)) % 2 ^ 64 = n * 10 + (c.val - 48) := by omega
      rw [if_pos h2, e1, if_neg (by omega)]
    · rw [if_neg h2, if_pos]
      omega

theorem ParseUintLoop_ok (M : Nat) (hM : M < 2 ^ 64) (ds : List Byte)
    (hd : ds.all isDigit = true) : ∀ n : Nat, digitsFrom n ds ≤ M →
      ParseUintLoop (maxUint64 / 10 + 1) M ds n = (digitsFrom n ds, none) := by
  induction ds with
  | nil => intro n _; rfl
  | cons c cs ih =>
    intro n hn
    rw [List.all_cons, Bool.and_eq_true] at hd
    rw [digitsFrom_cons] at hn
    have := le_digitsFrom cs (n * 10 + (c.val - 48))
    rw [ParseUintLoop_cons_digit M n c cs hd.1 hM, if_pos (by omega), digitsFrom_cons]
    exact ih hd.2 _ hn

theorem ParseUintLoop_range (M : Nat) (hM : M < 2 ^ 64) (ds : List Byte)
    (hd : ds.all isDigit = true) : ∀ n : Nat, n ≤ M → M < digitsFrom n ds →
      ParseUintLoop (maxUint64 / 10 + 1) M ds n = (M, some NumErr.ErrRange) := by
  induction ds with
  | nil => intro n h1 h2; simp [digitsFrom] at h2; omega
  | cons c cs ih =>
    intro n _ hn
    rw [List.all_cons, Bool.and_eq_true] at hd
    rw [digitsFrom_cons] at hn
    rw [ParseUintLoop_cons_digit M n c cs hd.1 hM]
    by_cases h2 : n * 10 + (c.val - 48) ≤ M
    · rw [if_pos h2]; exact ih hd.2 _ h2 hn
    · rw [if_neg h2]

theorem ParseUintLoop_bad (M : Nat) (hM : M < 2 ^ 64) (ds : List Byte)
    (hd : ds.all isDigit = false) : ∀ n : Nat,
      ParseUintLoop (maxUint64 / 10 + 1) M ds n = (0, some NumErr.ErrSyntax) ∨
      ParseUintLoop (maxUint64 / 10 + 1) M ds n = (M, some NumErr.ErrRange) := by
  induction ds with
  | nil => simp at hd
  | cons c cs ih =>
    intro n
    by_cases hc : isDigit c = true
    · have hcs : cs.all isDigit = false := by
        rw [List.all_cons, hc, Bool.true_and] at hd; exact hd
      rw [ParseUintLoop_cons_digit M n c cs hc hM]
      by_cases h2 : n * 10 + (c.val - 48) ≤ M
      · rw [if_pos h2]; exact ih hcs _
      · rw [if_neg h2]; right; rfl
    · have hc' : isDigit c = false := by simpa using hc
      rcases digitValue_other c hc' with h | ⟨d, h, hd10⟩
      · left; rw [ParseUintLoop, h]
      · left; rw [ParseUintLoop, h]; simp only; rw [if_pos hd10]

theorem ParseUint_eq (a : Arch) (s : GoString) (hs : s ≠ []) :
    ParseUint a s 0 = ParseUintLoop (maxUint64 / 10 + 1) (maxUint a) s 0 := by
  unfold ParseUint
  rw [if_neg hs]
  cases a <;> simp [intSize, maxUint]

theorem maxUint_lt (a : Arch) : maxUint a < 2 ^ 64 := by
  cases a <;> simp [intSize, maxUint]

theorem ParseUint_digits (a : Arch) (s : GoString) (hs : isDigits s = true) :
    ParseUint a s 0 =
      if digitsVal s ≤ maxUint a then (digitsVal s, none) else (maxUint a, some NumErr.ErrRange) := by
  obtain ⟨hne, hall⟩ := (isDigits_iff s).1 hs
  rw [ParseUint_eq a s hne]
  by_cases h : digitsVal s ≤ maxUint a
  · rw [if_pos h]; exact ParseUintLoop_ok _ (maxUint_lt a) s hall 0 h
  · rw [if_neg h]
    exact ParseUintLoop_range _ (maxUint_lt a) s hall 0 (Nat.zero_le _) (by unfold digitsVal at h; omega)

theorem ParseUint_nondigits (a : Arch) (s : GoString) (hs : isDigits s = false) :
    ParseUint a s 0 = (0, some NumErr.ErrSyntax) ∨
      ParseUint a s 0 = (maxUint a, some NumErr.ErrRange) := by
  by_cases hne : s = []
  · left; subst hne; rfl
  · rw [ParseUint_eq a s hne]
    have hall : s.all isDigit = false := by
      cases h : s.all isDigit
      · rfl
      · exact absurd ((isDigits_iff s).2 ⟨hne, h⟩) (by simp [hs])
    exact ParseUintLoop_bad _ (maxUint_lt a) s hall 0

/-! ## `ParseInt`: sign, cutoff and conversion -/

theorem maxInt_nonneg (a : Arch) : 0 ≤ maxInt a ∧ minInt a = -(maxInt a) - 1 := by
  cases a <;> simp [maxInt, minInt, intSize]

theorem port_le_maxInt (a : Arch) : (65535 : Int) ≤ maxInt a ∧ minInt a ≤ 0 := by
  cases a <;> simp [maxInt, minInt, intSize]

theorem wrapS_id (a : Arch) (v : Int) (h : minInt a ≤ v ∧ v ≤ maxInt a) :
    wrapS (intSize a) v = v := by
  cases a <;> simp only [wrapS, intSize, maxInt, minInt] at * <;> omega

theorem ParseInt_cons (a : Arch) (c : Byte) (cs : List Byte) (s1 : List Byte) (neg : Bool)
    (hs1 : s1 = if c.val = 43 then cs else if c.val = 45 then cs else c :: cs)
    (hneg : neg = decide (c.val = 45)) :
    (isDigits s1 = true →
      (∀ v : Int, v = (if neg then -(digitsVal s1 : Int) else (digitsVal s1 : Int)) →
        (minInt a ≤ v ∧ v ≤ maxInt a → ParseInt a (c :: cs) 0 = (v, none)) ∧
        (¬ (minInt a ≤ v ∧ v ≤ maxInt a) →
          (ParseInt a (c :: cs) 0).2 = some NumErr.ErrRange))) ∧
    (isDigits s1 = false → (ParseInt a (c :: cs) 0).2 ≠ none) := by
  constructor
  · intro hd v hv
    have hU := ParseUint_digits a s1 hd
    generalize digitsVal s1 = u at hU hv
    have e32 : (1 <<< (32 - 1)) % 2 ^ 64 = 2147483648 := by decide
    have e64 : (1 <<< (64 - 1)) % 2 ^ 64 = 9223372036854775808 := by decide
    by_cases hle : u ≤ maxUint a
    · rw [if_pos hle] at hU
      unfold ParseInt
      simp only [← hs1, ← hneg, hU]
      cases a <;> cases neg <;>
        simp only [maxUint, minInt, maxInt, intSize, wrapS, e32, e64, if_true, if_false,
          ne_eq, not_true_eq_false, false_and, true_and, and_true, and_false, if_pos,
          Bool.false_eq_true, reduceCtorEq, not_false_eq_true, ge_iff_le, gt_iff_lt] at * <;>
        (subst hv; refine ⟨fun h => ?_, fun h => ?_⟩) <;> split_ifs with h1 <;>
        first
          | (exfalso; omega)
          | (simp only [Prod.mk.injEq, and_true]; omega)
          | dsimp only
    · rw [if_neg hle] at hU
      unfold ParseInt
      simp only [← hs1, ← hneg, hU]
      cases a <;> cases neg <;>
        simp only [maxUint, minInt, maxInt, intSize, wrapS, e32, e64, if_true, if_false,
          ne_eq, not_true_eq_false, false_and, true_and, and_true, and_false, if_pos,
          Bool.false_eq_true, reduceCtorEq, not_false_eq_true, ge_iff_le, gt_iff_lt] at * <;>
        (subst hv; refine ⟨fun h => ?_, fun h => ?_⟩) <;> split_ifs with h1 <;>
        first
          | (exfalso; omega)
          | dsimp only
  · intro hd
    rcases ParseUint_nondigits a s1 hd with h | h
    · unfold ParseInt
      simp only [← hs1, ← hneg, h]
      simp
    · unfold ParseInt
      simp only [← hs1, ← hneg, h]
      cases a <;> cases neg <;> simp [maxUint, intSize]

/-- What `strconv.ParseInt(s, 10, 0)` computes, by the numeral `s` denotes. -/
theorem ParseInt_numeral (a : Arch) (s : GoString) :
    (∀ v : Int, numeral s = some v → minInt a ≤ v ∧ v ≤ maxInt a →
      ParseInt a s 0 = (v, none)) ∧
    (∀ v : Int, numeral s = some v → ¬ (minInt a ≤ v ∧ v ≤ maxInt a) →
      (ParseInt a s 0).2 = some NumErr.ErrRange) ∧
    (numeral s = none → (ParseInt a s 0).2 ≠ none) := by
  cases s with
  | nil => simp [numeral, ParseInt]
  | cons c cs =>
    by_cases h43 : c.val = 43
    · have h45 : ¬ c.val = 45 := by omega
      obtain ⟨P1, P2⟩ := ParseInt_cons a c cs cs false (by simp [h43]) (by simp [h45])
      rw [numeral_cons, if_pos h43]
      cases hd : isDigits cs
      · simp only [Bool.false_eq_true, if_false, reduceCtorEq, false_implies, implies_true,
          true_and]
        intro _; exact P2 hd
      · simp only [if_true, Option.some.injEq, reduceCtorEq, false_implies, and_true]
        have Q := P1 hd (digitsVal cs : Int) (by simp)
        exact ⟨fun v hv => hv ▸ Q.1, fun v hv => hv ▸ Q.2⟩
    · by_cases h45 : c.val = 45
      · obtain ⟨P1, P2⟩ := ParseInt_cons a c cs cs true (by simp [h45]) (by simp [h45])
        rw [numeral_cons, if_neg h43, if_pos h45]
        cases hd : isDigits cs
        · simp only [Bool.false_eq_true, if_false, reduceCtorEq, false_implies, implies_true,
            true_and]
          intro _; exact P2 hd
        · simp only [if_true, Option.some.injEq, reduceCtorEq, false_implies, and_true]
          have Q := P1 hd (-(digitsVal cs : Int)) (by simp)
          exact ⟨fun v hv => hv ▸ Q.1, fun v hv => hv ▸ Q.2⟩
      · obtain ⟨P1, P2⟩ := ParseInt_cons a c cs (c :: cs) false (by simp [h43, h45])
          (by simp [h45])
        rw [numeral_cons, if_neg h43, if_neg h45]
        cases hd : isDigits (c :: cs)
        · simp only [Bool.false_eq_true, if_false, reduceCtorEq, false_implies, implies_true,
            true_and]
          intro _; exact P2 hd
        · simp only [if_true, Option.some.injEq, reduceCtorEq, false_implies, and_true]
          have Q := P1 hd (digitsVal (c :: cs) : Int) (by simp)
          exact ⟨fun v hv => hv ▸ Q.1, fun v hv => hv ▸ Q.2⟩

/-! ## `Atoi`: both paths read decimal numerals that fit `int`, and nothing else -/

theorem AtoiLoop_bad (a : Arch) (ds : List Byte) (hd : ds.all isDigit = false) :
    ∀ n : Int, AtoiLoop a ds n = none := by
  induction ds with
  | nil => simp at hd
  | cons c cs ih =>
    intro n
    unfold AtoiLoop
    by_cases hc : isDigit c = true
    · have hcs : cs.all isDigit = false := by
        rw [List.all_cons, hc, Bool.true_and] at hd; exact hd
      have h := (isDigit_iff c).1 hc
      simp only
      rw [if_neg (by omega)]
      exact ih hcs _
    · have h : ¬ (48 ≤ c.val ∧ c.val ≤ 57) := fun h => hc ((isDigit_iff c).2 h)
      have := c.isLt
      simp only
      rw [if_pos (by omega)]

theorem AtoiLoop_ok (a : Arch) (ds : List Byte) (hd : ds.all isDigit = true) :
    ∀ n : Nat, (digitsFrom n ds : Int) ≤ maxInt a →
      AtoiLoop a ds (n : Int) = some (digitsFrom n ds : Int) := by
  induction ds with
  | nil => intro n _; rfl
  | cons c cs ih =>
    intro n hn
    rw [List.all_cons, Bool.and_eq_true] at hd
    have h := (isDigit_iff c).1 hd.1
    rw [digitsFrom_cons] at hn ⊢
    have hle := le_digitsFrom cs (n * 10 + (c.val - 48))
    unfold AtoiLoop
    simp only
    rw [if_neg (by omega)]
    have e : wrapS (intSize a) ((n : Int) * 10 + (((c.val + 256 - 48) % 256 : Nat) : Int)) =
        ((n * 10 + (c.val - 48) : Nat) : Int) := by
      cases a <;> simp only [wrapS, intSize, maxInt] at * <;> omega
    rw [e]
    exact ih hd.2 _ hn

theorem digitsVal_le_maxInt (a : Arch) (ds : List Byte) (hall : ds.all isDigit = true)
    (hlen : (intSize a = 32 ∧ ds.length < 10) ∨ (intSize a = 64 ∧ ds.length < 19)) :
    (digitsVal ds : Int) ≤ maxInt a := by
  have h := digitsFrom_lt ds hall 0
  rw [Nat.zero_add, Nat.one_mul] at h
  cases a
  · have hl : ds.length ≤ 9 := by simp [intSize] at hlen; omega
    have hp : 10 ^ ds.length ≤ 10 ^ 9 := Nat.pow_le_pow_right (by decide) hl
    simp only [maxInt, intSize, digitsVal]
    omega
  · have hl : ds.length ≤ 18 := by simp [intSize] at hlen; omega
    have hp : 10 ^ ds.length ≤ 10 ^ 18 := Nat.pow_le_pow_right (by decide) hl
    simp only [maxInt, intSize, digitsVal]
    omega

theorem Atoi_slow (a : Arch) (s : GoString)
    (h : ¬ ((intSize a = 32 ∧ (0 < s.length ∧ s.length < 10)) ∨
      (intSize a = 64 ∧ (0 < s.length ∧ s.length < 19)))) :
    Atoi a s = (wrapS (intSize a) (ParseInt a s 0).1, (ParseInt a s 0).2) := by
  unfold Atoi
  simp only
  rw [if_neg h]

theorem Atoi_fast (a : Arch) (c0 : Byte) (rest : List Byte)
    (h : (intSize a = 32 ∧ (0 < (c0 :: rest).length ∧ (c0 :: rest).length < 10)) ∨
      (intSize a = 64 ∧ (0 < (c0 :: rest).length ∧ (c0 :: rest).length < 19))) :
    Atoi a (c0 :: rest) =
      match AtoiLoop a (if c0.val = 45 ∨ c0.val = 43 then rest else c0 :: rest) 0 with
      | none => (0, some NumErr.ErrSyntax)
      | some n =>
        if (c0.val = 45 ∨ c0.val = 43) ∧ rest = [] then (0, some NumErr.ErrSyntax)
        else (if c0.val = 45 then wrapS (intSize a) (-n) else n, none) := by
  unfold Atoi
  simp only
  rw [if_pos h]
  by_cases hs : c0.val = 45 ∨ c0.val = 43
  · cases rest with
    | nil => simp [hs, AtoiLoop]
    | cons r rs =>
      simp only [hs, decide_True, List.length_cons, if_true]
      rw [if_neg (by omega)]
      simp
  · simp only [hs, decide_False, if_false, Bool.false_eq_true, false_and]

theorem Atoi_fast_numeral (a : Arch) (c0 : Byte) (rest : List Byte)
    (h : (intSize a = 32 ∧ (0 < (c0 :: rest).length ∧ (c0 :: rest).length < 10)) ∨
      (intSize a = 64 ∧ (0 < (c0 :: rest).length ∧ (c0 :: rest).length < 19))) :
    (∀ v : Int, numeral (c0 :: rest) = some v →
      Atoi a (c0 :: rest) = (v, none) ∧ minInt a ≤ v ∧ v ≤ maxInt a) ∧
    (numeral (c0 :: rest) = none → (Atoi a (c0 :: rest)).2 ≠ none) := by
  rw [Atoi_fast a c0 rest h, numeral_split]
  have hlen : (if c0.val = 45 ∨ c0.val = 43 then rest else c0 :: rest).length
      ≤ (c0 :: rest).length := by
    split_ifs <;> simp
  have hne : ¬ (c0.val = 45 ∨ c0.val = 43) →
      (if c0.val = 45 ∨ c0.val = 43 then rest else c0 :: rest) ≠ [] := by
    intro hs; rw [if_neg hs]; simp
  have hrest : (c0.val = 45 ∨ c0.val = 43) →
      (if c0.val = 45 ∨ c0.val = 43 then rest else c0 :: rest) = rest := by
    intro hs; rw [if_pos hs]
  generalize (if c0.val = 45 ∨ c0.val = 43 then rest else c0 :: rest) = s1 at hlen hne hrest ⊢
  cases hd : isDigits s1
  · simp only [Bool.false_eq_true, if_false, reduceCtorEq, false_implies, implies_true,
      true_and]
    by_cases hnil : s1 = []
    · subst hnil
      have hs : c0.val = 45 ∨ c0.val = 43 := by
        by_contra hs; exact hne hs rfl
      have hr : rest = [] := (hrest hs).symm
      simp [AtoiLoop, hs, hr]
    · have hall : s1.all isDigit = false := by
        cases h : s1.all isDigit
        · rfl
        · exact absurd ((isDigits_iff s1).2 ⟨hnil, h⟩) (by simp [hd])
      rw [AtoiLoop_bad a s1 hall 0]
      simp
  · obtain ⟨hnil, hall⟩ := (isDigits_iff s1).1 hd
    have hb : (digitsVal s1 : Int) ≤ maxInt a :=
      digitsVal_le_maxInt a s1 hall (by
        rcases h with ⟨h1, _, h2⟩ | ⟨h1, _, h2⟩
        · exact Or.inl ⟨h1, by omega⟩
        · exact Or.inr ⟨h1, by omega⟩)
    have hloop := AtoiLoop_ok a s1 hall 0 hb
    rw [Nat.cast_zero] at hloop
    have hcond : ¬ ((c0.val = 45 ∨ c0.val = 43) ∧ rest = []) := by
      rintro ⟨hs, hr⟩
      exact hnil ((hrest hs).trans hr)
    have hmm := maxInt_nonneg a
    simp only [if_true, Option.some.injEq, reduceCtorEq, false_implies, and_true, hloop]
    rw [if_neg hcond]
    intro v hv
    subst hv
    by_cases h45 : c0.val = 45
    · rw [if_pos h45, if_pos h45]
      have hr : minInt a ≤ -(digitsVal s1 : Int) ∧ -(digitsVal s1 : Int) ≤ maxInt a := by
        change _ ≤ -(digitsVal s1 : Int) ∧ _
        omega
      exact ⟨by rw [show digitsFrom 0 s1 = digitsVal s1 from rfl, wrapS_id a _ hr], hr⟩
    · rw [if_neg h45, if_neg h45]
      exact ⟨rfl, by omega, hb⟩

/-- What `strconv.Atoi` computes: a decimal numeral whose value fits `int` is
returned with a nil error, a numeral whose value does not fit gives a range
error, and every other string gives a non-nil error. -/
theorem Atoi_numeral (a : Arch) (s : GoString) :
    (∀ v : Int, numeral s = some v → minInt a ≤ v ∧ v ≤ maxInt a →
      Atoi a s = (v, none)) ∧
    (∀ v : Int, numeral s = some v → ¬ (minInt a ≤ v ∧ v ≤ maxInt a) →
      (Atoi a s).2 = some NumErr.ErrRange) ∧
    (numeral s = none → (Atoi a s).2 ≠ none) := by
  by_cases hf : (intSize a = 32 ∧ (0 < s.length ∧ s.length < 10)) ∨
      (intSize a = 64 ∧ (0 < s.length ∧ s.length < 19))
  · cases s with
    | nil => simp at hf
    | cons c0 rest =>
      obtain ⟨F1, F2⟩ := Atoi_fast_numeral a c0 rest hf
      exact ⟨fun v hv _ => (F1 v hv).1, fun v hv hr => absurd (F1 v hv).2 hr, F2⟩
  · rw [Atoi_slow a s hf]
    obtain ⟨P1, P2, P3⟩ := ParseInt_numeral a s
    refine ⟨fun v hv hr => ?_, P2, P3⟩
    rw [P1 v hv hr]
    simp only [wrapS_id a v hr]

/-! ## The handler on a single argument -/

theorem Println_fields (σ : Type) (w : World σ) (m : String) :
    (w.Println m).printed = w.printed ++ [m] ∧ (w.Println m).calls = w.calls ∧
      (w.Println m).sys = w.sys := ⟨rfl, rfl, rfl⟩

/-- The handler on one argument, by the numeral the argument denotes. -/
theorem Run_single (σ : Type) (a : Arch) (T : TrojanPkg σ) (s : GoString) (w : World σ) :
    portCmd.Run a T [s] w =
      match numeral s with
      | none => w.Println msgNotNumber
      | some v =>
        if 1 ≤ v ∧ v ≤ 65535 then w.ChangePortByNum T v
        else if minInt a ≤ v ∧ v ≤ maxInt a then w.Println msgOutOfRange
        else w.Println msgNotNumber := by
  obtain ⟨A1, A2, A3⟩ := Atoi_numeral a s
  have hb := port_le_maxInt a
  cases hn : numeral s with
  | none =>
    have h := A3 hn
    simp only [portCmd.Run]
    rw [if_pos h]
  | some v =>
    simp only [portCmd.Run]
    by_cases hr : minInt a ≤ v ∧ v ≤ maxInt a
    · rw [A1 v hn hr]
      simp only [ne_eq, not_true_eq_false, if_false]
      by_cases hp : 1 ≤ v ∧ v ≤ 65535
      · rw [if_neg (by omega), if_pos hp]
      · rw [if_pos (by omega), if_neg hp, if_pos hr]
    · have h := A2 v hn hr
      rw [if_pos (by rw [h]; simp), if_neg (by omega), if_neg hr]

theorem Run_single_cases (σ : Type) (a : Arch) (T : TrojanPkg σ) (s : GoString)
    (w : World σ) :
    (portCmd.Run a T [s] w = w.Println msgNotNumber ∨
      portCmd.Run a T [s] w = w.Println msgOutOfRange) ∨
    ∃ p : Int, portCmd.Run a T [s] w = w.ChangePortByNum T p := by
  simp only [portCmd.Run]
  split_ifs
  · exact Or.inl (Or.inl rfl)
  · exact Or.inl (Or.inr rfl)
  · exact Or.inr ⟨_, rfl⟩

theorem Run_calls_mem (σ : Type) (a : Arch) (T : TrojanPkg σ) (args : List GoString)
    (w : World σ) (q : Int) (h : Call.ChangePortByNum q ∈ (portCmd.Run a T args w).calls) :
    Call.ChangePortByNum q ∈ w.calls ∨ (1 ≤ q ∧ q ≤ 65535) := by
  match args, h with
  | [], h =>
    simp only [portCmd.Run, World.ChangePort, List.mem_append, List.mem_singleton,
      reduceCtorEq, or_false] at h
    exact Or.inl h
  | [s], h =>
    simp only [portCmd.Run] at h
    split_ifs at h with h1 h2
    · exact Or.inl h
    · exact Or.inl h
    · simp only [World.ChangePortByNum, List.mem_append, List.mem_singleton,
        Call.ChangePortByNum.injEq] at h
      rcases h with h | h
      · exact Or.inl h
      · right; omega
  | _ :: _ :: _, h =>
    simp only [portCmd.Run, World.ChangePort, List.mem_append, List.mem_singleton,
      reduceCtorEq, or_false] at h
    exact Or.inl h

/-- The handler on some explicit arguments: `+443` and `00443` pass 443; `-5`
is out of range; the empty string, ` 443`, `1_0`, `0x1f` and `4.5` are not
numbers. -/
theorem Run_plus443 :
    (portCmd.Run Arch.bits64 storePkg [[43, 52, 52, 51]] ⟨[], [], 80⟩).calls
      = [Call.ChangePortByNum 443] ∧
    (portCmd.Run Arch.bits32 storePkg [[48, 48, 52, 52, 51]] ⟨[], [], 80⟩).calls
      = [Call.ChangePortByNum 443] ∧
    (portCmd.Run Arch.bits64 storePkg [[45, 53]] ⟨[], [], 80⟩).printed = [msgOutOfRange] ∧
    (portCmd.Run Arch.bits64 storePkg [[]] ⟨[], [], 80⟩).printed = [msgNotNumber] ∧
    (portCmd.Run Arch.bits64 storePkg [[32, 52, 52, 51]] ⟨[], [], 80⟩).printed
      = [msgNotNumber] ∧
    (portCmd.Run Arch.bits64 storePkg [[49, 95, 48]] ⟨[], [], 80⟩).printed = [msgNotNumber] ∧
    (portCmd.Run Arch.bits64 storePkg [[48, 120, 49, 102]] ⟨[], [], 80⟩).printed
      = [msgNotNumber] ∧
    (portCmd.Run Arch.bits64 storePkg [[52, 46, 53]] ⟨[], [], 80⟩).printed
      = [msgNotNumber] := by
  decide

/-! ## The claims -/

/-- Claim C1: for every machine integer `p` that parsing the single argument
yields (`strconv.Atoi` returns `p` with a nil error), the range check of the
handler is decided: it goes on to `trojan.ChangePortByNum p` exactly when
`1 ≤ p ≤ 65535` and prints the out-of-range message otherwise; and every value
that any run of the handler passes to `ChangePortByNum` lies in [1, 65535]. -/
theorem C1_range_check (σ : Type) (a : Arch) (T : TrojanPkg σ) (s : GoString) (p : Int)
    (w : World σ) (h : strconv.Atoi a s = (p, none)) :
    (portCmd.Run a T [s] w =
      if 1 ≤ p ∧ p ≤ 65535 then w.ChangePortByNum T p else w.Println msgOutOfRange) ∧
    ((portCmd.Run a T [s] w).calls = w.calls ++ [Call.ChangePortByNum p] ↔
      1 ≤ p ∧ p ≤ 65535) ∧
    (∀ (args : List GoString) (w0 : World σ) (q : Int),
      Call.ChangePortByNum q ∈ (portCmd.Run a T args w0).calls →
        Call.ChangePortByNum q ∈ w0.calls ∨ (1 ≤ q ∧ q ≤ 65535)) := by
  have hrun : portCmd.Run a T [s] w =
      if 1 ≤ p ∧ p ≤ 65535 then w.ChangePortByNum T p else w.Println msgOutOfRange := by
    simp only [portCmd.Run, h, ne_eq, not_true_eq_false, if_false]
    by_cases hp : 1 ≤ p ∧ p ≤ 65535
    · rw [if_neg (by omega), if_pos hp]
    · rw [if_pos (by omega), if_neg hp]
  refine ⟨hrun, ?_, fun args w0 q => Run_calls_mem σ a T args w0 q⟩
  rw [hrun]
  by_cases hp : 1 ≤ p ∧ p ≤ 65535
  · rw [if_pos hp]; exact ⟨fun _ => hp, fun _ => rfl⟩
  · rw [if_neg hp]
    refine ⟨fun hc => ?_, fun hq => absurd hq hp⟩
    simp [World.Println] at hc

/-- Claim C1 at the argument `8443` on a 64-bit platform. -/
theorem C1_witness :
    strconv.Atoi Arch.bits64 [56, 52, 52, 51] = (8443, none) ∧
    (portCmd.Run Arch.bits64 storePkg [[56, 52, 52, 51]] ⟨[], [], 443⟩).calls
      = [Call.ChangePortByNum 8443] :=
  ⟨by decide,
    ((C1_range_check Nat Arch.bits64 storePkg [56, 52, 52, 51] 8443 ⟨[], [], 443⟩
      (by decide)).2.1).2 (by decide)⟩

/-- Claim C2: for every argument that is not a decimal numeral, the handler
prints the not-a-number message and makes no call into package `trojan`, so
the state behind those calls is untouched. -/
theorem C2_not_a_number (σ : Type) (a : Arch) (T : TrojanPkg σ) (s : GoString) (w : World σ)
    (h : numeral s = none) :
    (portCmd.Run a T [s] w).printed = w.printed ++ [msgNotNumber] ∧
    (portCmd.Run a T [s] w).calls = w.calls ∧
    (portCmd.Run a T [s] w).sys = w.sys := by
  rw [Run_single, h]
  exact Println_fields σ w msgNotNumber

/-- Claim C2 at the argument `abc`. -/
theorem C2_witness :
    numeral [97, 98, 99] = none ∧
    (portCmd.Run Arch.bits64 storePkg [[97, 98, 99]] ⟨[], [], 443⟩).printed = [msgNotNumber] ∧
    (portCmd.Run Arch.bits64 storePkg [[97, 98, 99]] ⟨[], [], 443⟩).calls = [] ∧
    (portCmd.Run Arch.bits64 storePkg [[97, 98, 99]] ⟨[], [], 443⟩).sys = 443 :=
  ⟨by decide, C2_not_a_number Nat Arch.bits64 storePkg [97, 98, 99] ⟨[], [], 443⟩ (by decide)⟩

/-- The range branch of the handler: for every decimal numeral whose value fits
Go's `int` and lies outside [1, 65535], the handler prints the out-of-range
message and makes no call. -/
theorem Run_out_of_range_of_fits (σ : Type) (a : Arch) (T : TrojanPkg σ) (s : GoString)
    (v : Int) (w : World σ) (hn : numeral s = some v) (hv : ¬ (1 ≤ v ∧ v ≤ 65535))
    (hr : minInt a ≤ v ∧ v ≤ maxInt a) :
    (portCmd.Run a T [s] w).printed = w.printed ++ [msgOutOfRange] ∧
    (portCmd.Run a T [s] w).calls = w.calls ∧ (portCmd.Run a T [s] w).sys = w.sys := by
  rw [Run_single, hn]
  simp only
  rw [if_neg hv, if_pos hr]
  exact Println_fields σ w msgOutOfRange

/-- Claim C3 at its failing input: the twenty-digit string
`99999999999999999999` is a decimal numeral whose value lies outside
[1, 65535], and on a 64-bit platform the handler prints the not-a-number
message for it, where the claim requires the out-of-range message (the two
differ).  The range branch does report its neighbours: `65536` and
`9223372036854775807` print the out-of-range message while
`9223372036854775808` prints the not-a-number one, and `2147483648` prints the
not-a-number message on 32-bit and the out-of-range message on 64-bit. -/
theorem C3_failing_input :
    numeral [57, 57, 57, 57, 57, 57, 57, 57, 57, 57, 57, 57, 57, 57, 57, 57, 57, 57, 57, 57]
      = some 99999999999999999999 ∧
    ¬ ((1 : Int) ≤ 99999999999999999999 ∧ (99999999999999999999 : Int) ≤ 65535) ∧
    (portCmd.Run Arch.bits64 storePkg
      [[57, 57, 57, 57, 57, 57, 57, 57, 57, 57, 57, 57, 57, 57, 57, 57, 57, 57, 57, 57]]
      ⟨[], [], 443⟩).printed = [msgNotNumber] ∧
    msgNotNumber ≠ msgOutOfRange ∧
    (portCmd.Run Arch.bits64 storePkg [[54, 53, 53, 51, 54]] ⟨[], [], 443⟩).printed
      = [msgOutOfRange] ∧
    (portCmd.Run Arch.bits64 storePkg
      [[57, 50, 50, 51, 51, 55, 50, 48, 51, 54, 56, 53, 52, 55, 55, 53, 56, 48, 55]]
      ⟨[], [], 443⟩).printed = [msgOutOfRange] ∧
    (portCmd.Run Arch.bits64 storePkg
      [[57, 50, 50, 51, 51, 55, 50, 48, 51, 54, 56, 53, 52, 55, 55, 53, 56, 48, 56]]
      ⟨[], [], 443⟩).printed = [msgNotNumber] ∧
    (portCmd.Run Arch.bits32 storePkg [[50, 49, 52, 55, 52, 56, 51, 54, 52, 56]]
      ⟨[], [], 443⟩).printed = [msgNotNumber] ∧
    (portCmd.Run Arch.bits64 storePkg [[50, 49, 52, 55, 52, 56, 51, 54, 52, 56]]
      ⟨[], [], 443⟩).printed = [msgOutOfRange] :=
  ⟨by decide, by decide, by decide, by decide,
    by set_option maxRecDepth 8000 in decide,
    by set_option maxRecDepth 8000 in decide,
    by set_option maxRecDepth 8000 in decide,
    by set_option maxRecDepth 8000 in decide,
    by set_option maxRecDepth 8000 in decide⟩

/-- Claim C4: whenever the handler, run on a single argument, prints one of
its two validation messages, it has made no call into package `trojan` and the
state behind those calls is exactly what it was. -/
theorem C4_validation_no_effect (σ : Type) (a : Arch) (T : TrojanPkg σ) (s : GoString)
    (w : World σ)
    (h : (portCmd.Run a T [s] w).printed = w.printed ++ [msgNotNumber] ∨
      (portCmd.Run a T [s] w).printed = w.printed ++ [msgOutOfRange]) :
    (portCmd.Run a T [s] w).calls = w.calls ∧ (portCmd.Run a T [s] w).sys = w.sys := by
  rw [Run_single] at h ⊢
  cases hn : numeral s with
  | none => exact (Println_fields σ w msgNotNumber).2
  | some v =>
    rw [hn] at h
    simp only at h ⊢
    split_ifs at h ⊢ with h1 h2
    · simp [World.ChangePortByNum] at h
    · exact (Println_fields σ w msgOutOfRange).2
    · exact (Println_fields σ w msgNotNumber).2

/-- Claim C4 at the argument `0` with the port 443 configured. -/
theorem C4_witness :
    (portCmd.Run Arch.bits64 storePkg [[48]] ⟨[], [], 443⟩).calls = [] ∧
    (portCmd.Run Arch.bits64 storePkg [[48]] ⟨[], [], 443⟩).sys = 443 :=
  C4_validation_no_effect Nat Arch.bits64 storePkg [48] ⟨[], [], 443⟩ (Or.inr (by decide))

/-- Claim C5: for every integer `p` with `1 ≤ p ≤ 65535`, the handler run on the
decimal numeral of `p` makes exactly one call, `trojan.ChangePortByNum p`,
prints nothing, and never calls the interactive `trojan.ChangePort`. -/
theorem C5_valid_port (σ : Type) (a : Arch) (T : TrojanPkg σ) (p : Int) (w : World σ)
    (h1 : 1 ≤ p) (h2 : p ≤ 65535) :
    (portCmd.Run a T [decimal p.toNat] w).calls = w.calls ++ [Call.ChangePortByNum p] ∧
    (portCmd.Run a T [decimal p.toNat] w).printed = w.printed ∧
    (portCmd.Run a T [decimal p.toNat] w).sys = T.ChangePortByNum p w.sys := by
  have hp : ((p.toNat : Nat) : Int) = p := Int.toNat_of_nonneg (by omega)
  rw [Run_single, numeral_decimal, hp]
  simp only
  rw [if_pos ⟨h1, h2⟩]
  exact ⟨rfl, rfl, rfl⟩

/-- Claim C5 at `p = 8443`, whose decimal numeral is the string `8443`. -/
theorem C5_witness :
    decimal 8443 = [56, 52, 52, 51] ∧
    (portCmd.Run Arch.bits64 storePkg [decimal (8443 : Int).toNat] ⟨[], [], 443⟩).calls
      = [Call.ChangePortByNum 8443] ∧
    (portCmd.Run Arch.bits64 storePkg [decimal (8443 : Int).toNat] ⟨[], [], 443⟩).printed = [] ∧
    (portCmd.Run Arch.bits64 storePkg [decimal (8443 : Int).toNat] ⟨[], [], 443⟩).sys = 8443 :=
  ⟨by simp [decimal],
    C5_valid_port Nat Arch.bits64 storePkg 8443 ⟨[], [], 443⟩ (by decide) (by decide)⟩

/-- Claim C6: run with no argument, the command passes the argument check and
the handler makes exactly one call, `trojan.ChangePort`, printing nothing; run
with one argument, the handler makes either no call or exactly one call, to
`trojan.ChangePortByNum`, and so never calls `trojan.ChangePort`. -/
theorem C6_interactive (σ : Type) (a : Arch) (T : TrojanPkg σ) (w : World σ) :
    (portCmd.execute a T [] w = (none, portCmd.Run a T [] w) ∧
      (portCmd.Run a T [] w).calls = w.calls ++ [Call.ChangePort] ∧
      (portCmd.Run a T [] w).printed = w.printed ∧
      (portCmd.Run a T [] w).sys = T.ChangePort w.sys) ∧
    (∀ s : GoString,
      (portCmd.Run a T [s] w).calls = w.calls ∨
      ∃ p : Int, (portCmd.Run a T [s] w).calls = w.calls ++ [Call.ChangePortByNum p]) := by
  refine ⟨⟨rfl, rfl, rfl, rfl⟩, fun s => ?_⟩
  rcases Run_single_cases σ a T s w with (h | h) | ⟨p, h⟩
  · rw [h]; exact Or.inl rfl
  · rw [h]; exact Or.inl rfl
  · rw [h]; exact Or.inr ⟨p, rfl⟩

/-- Claim C7 fails: the argument `abc` fails validation and `8443` leads to a
port change, yet the command reports the same result, a nil error, to its
caller in both runs. -/
theorem C7_counterexample :
    (portCmd.execute Arch.bits64 storePkg [[97, 98, 99]] ⟨[], [], 443⟩).2.printed
      = [msgNotNumber] ∧
    (portCmd.execute Arch.bits64 storePkg [[56, 52, 52, 51]] ⟨[], [], 443⟩).2.calls
      = [Call.ChangePortByNum 8443] ∧
    (portCmd.execute Arch.bits64 storePkg [[97, 98, 99]] ⟨[], [], 443⟩).1 = none ∧
    (portCmd.execute Arch.bits64 storePkg [[97, 98, 99]] ⟨[], [], 443⟩).1
      = (portCmd.execute Arch.bits64 storePkg [[56, 52, 52, 51]] ⟨[], [], 443⟩).1 :=
  ⟨by decide, by set_option maxRecDepth 4000 in decide, rfl, rfl⟩

/-- Claim C7, amended: for every single argument, whether or not it passes
validation, the command returns a nil error to its caller; a validation
failure differs from a port change only in what the handler does: it prints
exactly one validation message and makes no call, where a port change prints
nothing and makes one call to `trojan.ChangePortByNum`. -/
theorem C7_no_error_result (σ : Type) (a : Arch) (T : TrojanPkg σ) (s : GoString)
    (w : World σ) :
    (portCmd.execute a T [s] w).1 = none ∧
    (((portCmd.execute a T [s] w).2.calls = w.calls ∧
        ((portCmd.execute a T [s] w).2.printed = w.printed ++ [msgNotNumber] ∨
          (portCmd.execute a T [s] w).2.printed = w.printed ++ [msgOutOfRange])) ∨
      ((portCmd.execute a T [s] w).2.printed = w.printed ∧
        ∃ p : Int, (portCmd.execute a T [s] w).2.calls
          = w.calls ++ [Call.ChangePortByNum p])) := by
  have he : portCmd.execute a T [s] w = (none, portCmd.Run a T [s] w) := rfl
  rw [he]
  refine ⟨rfl, ?_⟩
  rcases Run_single_cases σ a T s w with (h | h) | ⟨p, h⟩
  · rw [h]; exact Or.inl ⟨rfl, Or.inl rfl⟩
  · rw [h]; exact Or.inl ⟨rfl, Or.inr rfl⟩
  · rw [h]; exact Or.inr ⟨rfl, p, rfl⟩

/-- Claim C8 fails when the rollback restart fails too (scenario 5): with port
443 configured and running, a validated 9999 whose apply fails and whose
`revertAndRestart` fails ends `Degraded`, the store on 9999 and the service
down, neither back on 443. -/
theorem C8_counterexample :
    Core.validate 9999 = some 9999 ∧
    (Core.reconfigure (Core.Service.mk (fun _ => false) (fun _ => false)) 9999
      ⟨443, some 443⟩).1 = Core.Outcome.Degraded ∧
    (Core.reconfigure (Core.Service.mk (fun _ => false) (fun _ => false)) 9999
      ⟨443, some 443⟩).2.1 = ⟨9999, none⟩ ∧
    (Core.reconfigure (Core.Service.mk (fun _ => false) (fun _ => false)) 9999
      ⟨443, some 443⟩).2.1 ≠ ⟨443, some 443⟩ := by
  decide

/-- Claim C8, amended: if applying a validated new port fails after the commit,
the reconfiguration makes exactly one rollback attempt, a `revertAndRestart`
with the previously authoritative port; when that restart succeeds the old
port is re-committed and store and service are both back on the old port
(`ApplyFailed` with `recovered` true); when it fails the outcome is `Degraded`,
the store keeps the new port and the service is down. -/
theorem C8_rollback (svc : Core.Service) (candidate : Int) (sys : Core.System)
    (newPort : Nat) (hv : Core.validate candidate = some newPort)
    (ha : svc.applyOk newPort = false) :
    Core.rollbacks (Core.reconfigure svc candidate sys).2.2 = 1 ∧
    Core.Op.revertAndRestart sys.store ∈ (Core.reconfigure svc candidate sys).2.2 ∧
    (svc.revertOk sys.store = true →
      (Core.reconfigure svc candidate sys).1 = Core.Outcome.ApplyFailed true ∧
      (Core.reconfigure svc candidate sys).2.1 = ⟨sys.store, some sys.store⟩ ∧
      (Core.reconfigure svc candidate sys).2.2 =
        [Core.Op.commit newPort, Core.Op.apply newPort,
          Core.Op.revertAndRestart sys.store, Core.Op.commit sys.store]) ∧
    (svc.revertOk sys.store = false →
      (Core.reconfigure svc candidate sys).1 = Core.Outcome.Degraded ∧
      (Core.reconfigure svc candidate sys).2.1 = ⟨newPort, none⟩) := by
  unfold Core.reconfigure
  rw [hv]
  simp only [ha, Bool.false_eq_true, if_false]
  cases hr : svc.revertOk sys.store
  · simp [Core.rollbacks]
  · simp [Core.rollbacks]

/-- Claim C8 (amended) at scenario 4: port 443 configured and running, input
9999, the start on 9999 fails and the restart on 443 succeeds. -/
theorem C8_witness :
    Core.validate 9999 = some 9999 ∧
    (Core.reconfigure (Core.Service.mk (fun p => p != 9999) (fun _ => true)) 9999
      ⟨443, some 443⟩).1 = Core.Outcome.ApplyFailed true ∧
    (Core.reconfigure (Core.Service.mk (fun p => p != 9999) (fun _ => true)) 9999
      ⟨443, some 443⟩).2.1 = ⟨443, some 443⟩ ∧
    (Core.reconfigure (Core.Service.mk (fun p => p != 9999) (fun _ => true)) 9999
      ⟨443, some 443⟩).2.2 =
        [Core.Op.commit 9999, Core.Op.apply 9999, Core.Op.revertAndRestart 443,
          Core.Op.commit 443] :=
  ⟨by decide,
    (C8_rollback (Core.Service.mk (fun p => p != 9999) (fun _ => true)) 9999
      ⟨443, some 443⟩ 9999 (by decide) (by decide)).2.2.1 (by decide)⟩

/-- Claim C9: the argument check of the command accepts exactly the argument
lists of length 0 or 1; for those the handler runs and the command returns a
nil error, and for every longer list the command returns the error of
`cobra.MaximumNArgs(1)` with the world unchanged, so the handler has not run
and nothing was called. -/
theorem C9_at_most_one_arg (σ : Type) (a : Arch) (T : TrojanPkg σ) (args : List GoString)
    (w : World σ) :
    (portCmd.Args args = none ↔ args.length ≤ 1) ∧
    portCmd.execute a T args w =
      if args.length ≤ 1 then (none, portCmd.Run a T args w)
      else (some (ArgsError.atMost 1 args.length), w) := by
  unfold portCmd.execute portCmd.Args cobra.MaximumNArgs
  by_cases h : args.length ≤ 1
  · rw [if_neg (by omega), if_pos h]; exact ⟨⟨fun _ => h, fun _ => rfl⟩, rfl⟩
  · rw [if_pos (by omega), if_neg h]
    exact ⟨⟨fun hc => by simp at hc, fun hc => absurd hc h⟩, rfl⟩

/-- Claim C10: for every single argument `s`, the handler calls
`trojan.ChangePortByNum v` exactly when `s` is an optional `+` followed by one
or more ASCII digits whose value is `v` with `1 ≤ v ≤ 65535`; for every other
string it makes no call and prints one of the two validation messages. -/
theorem C10_accepted_strings (σ : Type) (a : Arch) (T : TrojanPkg σ) (s : GoString)
    (w : World σ) :
    (∀ v : Int, (portCmd.Run a T [s] w).calls = w.calls ++ [Call.ChangePortByNum v] ↔
      ∃ n : Nat, plusDigits s = some n ∧ 1 ≤ n ∧ n ≤ 65535 ∧ v = (n : Int)) ∧
    ((∃ n : Nat, plusDigits s = some n ∧ 1 ≤ n ∧ n ≤ 65535) ∨
      ((portCmd.Run a T [s] w).calls = w.calls ∧ (portCmd.Run a T [s] w).sys = w.sys ∧
        ((portCmd.Run a T [s] w).printed = w.printed ++ [msgNotNumber] ∨
          (portCmd.Run a T [s] w).printed = w.printed ++ [msgOutOfRange]))) := by
  rw [Run_single]
  cases hn : numeral s with
  | none =>
    have hno : ∀ n : Nat, plusDigits s ≠ some n := fun n hp => by
      rw [numeral_of_plusDigits s n hp] at hn; simp at hn
    simp only
    refine ⟨fun v => ⟨fun hc => ?_, fun ⟨n, hp, _⟩ => absurd hp (hno n)⟩,
      Or.inr ⟨rfl, rfl, Or.inl rfl⟩⟩
    simp [World.Println] at hc
  | some v0 =>
    simp only
    by_cases hp : 1 ≤ v0 ∧ v0 ≤ 65535
    · rw [if_pos hp]
      have hpd := plusDigits_of_numeral s v0 hn hp.1
      have hcast : ((v0.toNat : Nat) : Int) = v0 := Int.toNat_of_nonneg (by omega)
      refine ⟨fun v => ⟨fun hc => ?_, fun ⟨n, hq, _, _, hv⟩ => ?_⟩,
        Or.inl ⟨v0.toNat, hpd, by omega, by omega⟩⟩
      · simp only [World.ChangePortByNum, List.append_cancel_left_eq, List.cons.injEq,
          Call.ChangePortByNum.injEq, and_true] at hc
        exact ⟨v0.toNat, hpd, by omega, by omega, by omega⟩
      · rw [hpd] at hq
        simp only [Option.some.injEq] at hq
        have : v = v0 := by omega
        rw [this]; rfl
    · have hno : ∀ n : Nat, plusDigits s = some n → ¬ (1 ≤ n ∧ n ≤ 65535) := by
        intro n hq hr
        rw [numeral_of_plusDigits s n hq] at hn
        simp only [Option.some.injEq] at hn
        omega
      rw [if_neg hp]
      constructor
      · intro v
        refine ⟨fun hc => ?_, fun ⟨n, hq, h1, h2, _⟩ => absurd ⟨h1, h2⟩ (hno n hq)⟩
        split_ifs at hc <;> simp [World.Println] at hc
      · right
        split_ifs
        · exact ⟨rfl, rfl, Or.inr rfl⟩
        · exact ⟨rfl, rfl, Or.inl rfl⟩

end Trojan
